import Mathlib

/-!
Shallow embedding of `src/vimwiki_rename_link.rs` (vimwiki link renaming engine).

Strings are modelled as `List Char` (`Str`).  Filesystem paths are modelled as
lists of Rust `std::path::Component`s (`Comp`), with `parsePath` mirroring
`Path::components()` on Unix, `clean` mirroring the `path_clean` crate,
`diffPaths` mirroring the `pathdiff` crate, and the accessor functions
(`fileNameC`, `extensionC`, `withExtEmpty`, `parentC`) mirroring the
corresponding `std::path::Path` methods.  The three regular expressions of the
source are hand-specialised into deterministic scanners implementing the
leftmost-first match semantics of the Rust `regex` crate for exactly those
patterns.
-/

namespace VimwikiRename

/-- Strings as lists of characters. -/
abbrev Str := List Char

/-- Unicode `White_Space` code points: the set matched by Rust
`char::is_whitespace` and by the regex class `\s` (Unicode mode). -/
def isWS (c : Char) : Bool :=
  (0x09 ≤ c.toNat && c.toNat ≤ 0x0D) || c.toNat = 0x20 || c.toNat = 0x85 ||
    c.toNat = 0xA0 || c.toNat = 0x1680 ||
    (0x2000 ≤ c.toNat && c.toNat ≤ 0x200A) || c.toNat = 0x2028 ||
    c.toNat = 0x2029 || c.toNat = 0x202F || c.toNat = 0x205F || c.toNat = 0x3000

/-- Does `s` start with `pat`? -/
def startsWith (pat s : Str) : Bool := decide (s.take pat.length = pat)

/-- Substring containment, mirroring Rust `str::contains` for a literal. -/
def isSubStr (pat : Str) : Str → Bool
  | [] => startsWith pat []
  | h :: t => startsWith pat (h :: t) || isSubStr pat t

/-- Rust `str::trim`: strip whitespace from both ends. -/
def trimStr (s : Str) : Str := ((s.dropWhile isWS).reverse.dropWhile isWS).reverse

/-- Unix path components, as in Rust `std::path::Component`
(the Windows-only `Prefix` constructor is irrelevant here). -/
inductive Comp where
  | rootDir
  | curDir
  | parentDir
  | normal (s : Str)
deriving DecidableEq, Repr

/-- Split a string at every `/` (keeping empty segments). -/
def splitSlash : Str → List Str
  | [] => [[]]
  | c :: t =>
    if c = '/' then [] :: splitSlash t
    else
      match splitSlash t with
      | s :: ss => (c :: s) :: ss
      | [] => [[c]]

/-- Interpret the non-leading segments of a split path: empty segments and
`.` segments are dropped, `..` becomes `ParentDir` (Rust `components()`
normalisation away from the front of the path). -/
def parseSegs (segs : List Str) : List Comp :=
  segs.filterMap fun s =>
    if s = [] then none
    else if s = [ '.' ] then none
    else if s = ("..".data) then some Comp.parentDir
    else some (Comp.normal s)

/-- Rust `Path::components()` on Unix: a leading `/` yields `RootDir`;
a leading `.` of a relative path is kept as `CurDir`; all other `.` segments
and empty segments are dropped. -/
def parsePath (s : Str) : List Comp :=
  if s.take 1 = [ '/' ] then Comp.rootDir :: parseSegs (splitSlash s)
  else
    match splitSlash s with
    | [] => []
    | first :: rest =>
      if first = [ '.' ] then Comp.curDir :: parseSegs rest
      else parseSegs (first :: rest)

/-- One step of the `path_clean` crate's fold over components. -/
def cleanStep (out : List Comp) (c : Comp) : List Comp :=
  match c with
  | Comp.curDir => out
  | Comp.parentDir =>
    match out.getLast? with
    | some Comp.rootDir => out
    | some (Comp.normal _) => out.dropLast
    | _ => out ++ [Comp.parentDir]
  | c => out ++ [c]

/-- The `path_clean` crate's `clean` on a component list. -/
def clean (cs : List Comp) : List Comp :=
  let out := cs.foldl cleanStep []
  if out = [] then [Comp.curDir] else out

/-- Text of a single non-root component. -/
def compStr : Comp → Str
  | Comp.rootDir => [ '/' ]
  | Comp.curDir => [ '.' ]
  | Comp.parentDir => "..".data
  | Comp.normal s => s

/-- Join components with `/` separators. -/
def joinSl : List Comp → Str
  | [] => []
  | [c] => compStr c
  | c :: cs => compStr c ++ '/' :: joinSl cs

/-- Render a component list as the string Rust produces when collecting the
components into a `PathBuf` (what `to_str` returns on such a path). -/
def renderComps : List Comp → Str
  | [] => []
  | Comp.rootDir :: rest => '/' :: joinSl rest
  | cs => joinSl cs

/-- Rust `Path::file_name`: the final component if it is a normal one. -/
def fileNameC (cs : List Comp) : Option Str :=
  match cs.getLast? with
  | some (Comp.normal s) => some s
  | _ => none

/-- Rust `rsplit_file_at_dot` on a file name: `(file_stem, extension)`.
The extension is the part after the last `.`, absent if there is no `.` or
the only `.` is the leading character. -/
def splitExt (n : Str) : Str × Option Str :=
  if n = ("..".data) then (n, none)
  else
    match lastIdxOf '.' n with
    | none => (n, none)
    | some 0 => (n, none)
    | some i => (n.take i, some (n.drop (i + 1)))
where
  lastIdxOf (c : Char) : Str → Option Nat
    | [] => none
    | h :: t =>
      match lastIdxOf c t with
      | some i => some (i + 1)
      | none => if h = c then some 0 else none

/-- Index of the last occurrence of `c` in `s`. -/
def lastIdxOf (c : Char) : Str → Option Nat
  | [] => none
  | h :: t =>
    match lastIdxOf c t with
    | some i => some (i + 1)
    | none => if h = c then some 0 else none

/-- Rust `Path::extension()`. -/
def extensionC (cs : List Comp) : Option Str :=
  (fileNameC cs).bind fun n => (splitExt n).2

/-- Rust `Path::with_extension("")`: replace the file name by its stem. -/
def withExtEmpty (cs : List Comp) : List Comp :=
  match fileNameC cs with
  | none => cs
  | some n => cs.dropLast ++ [Comp.normal (splitExt n).1]

/-- Rust `Path::parent()`: drop the last component; `None` for the root or
the empty path. -/
def parentC (cs : List Comp) : Option (List Comp) :=
  match cs with
  | [] => none
  | [Comp.rootDir] => none
  | _ => some cs.dropLast

/-- Rust `Path::join` with a string argument: parse it and append, unless the
argument is absolute, in which case it replaces the whole path. -/
def joinS (base : List Comp) (s : Str) : List Comp :=
  let p := parsePath s
  if p.take 1 = [Comp.rootDir] then p else base ++ p

/-- Is the path absolute (Unix `is_absolute` = has a root)? -/
def isAbs (cs : List Comp) : Bool := decide (cs.take 1 = [Comp.rootDir])

/-- The component loop of `pathdiff::diff_paths`, with its exact arm order:
exhausted base extends with the remaining path; an exhausted path pushes one
`..` per remaining base component; a common prefix is skipped only while no
output has been produced; a `.` in the base passes the path component
through; a `..` in the base aborts; any other mismatch emits `..`s for the
rest of the base followed by the rest of the path. -/
def diffLoop : List Comp → List Comp → List Comp → Option (List Comp)
  | ita, [], comps => some (comps ++ ita)
  | [], _ :: rb, comps => diffLoop [] rb (comps ++ [Comp.parentDir])
  | a :: ra, b :: rb, comps =>
    if comps = [] ∧ a = b then diffLoop ra rb comps
    else if b = Comp.curDir then diffLoop ra rb (comps ++ [a])
    else if b = Comp.parentDir then none
    else some (comps ++ [Comp.parentDir] ++ rb.map (fun _ => Comp.parentDir) ++ a :: ra)

/-- Model of `pathdiff::diff_paths(path, base)`. -/
def diffPaths (path base : List Comp) : Option (List Comp) :=
  if isAbs path ≠ isAbs base then
    (if isAbs path then some path else none)
  else diffLoop path base []

/-- The `AbsolutePath` struct of the source: a path cleaned at construction. -/
structure AbsolutePath where
  comps : List Comp
deriving DecidableEq, Repr

/-- Constructor `AbsolutePath::new`: parse and clean. -/
def AbsolutePath.new (s : Str) : AbsolutePath := ⟨clean (parsePath s)⟩

/-- Method `AbsolutePath::is_in_diary`: the rendered path contains `/diary/`. -/
def isInDiary (t : AbsolutePath) : Bool := isSubStr ("/diary/".data) (renderComps t.comps)

/-- Method `AbsolutePath::get_file_name`: file name of the extension-stripped path. -/
def getFileName (t : AbsolutePath) : Option Str := fileNameC (withExtEmpty t.comps)

/-- The `PartialEq` impl for `AbsolutePath`: exact comparison when both sides
carry an extension, comparison after stripping extensions otherwise. -/
def absEq (a b : AbsolutePath) : Bool :=
  match extensionC a.comps, extensionC b.comps with
  | some _, some _ => decide (a.comps = b.comps)
  | _, _ => decide (withExtEmpty a.comps = withExtEmpty b.comps)

/-- The `Link` struct: optional namespace marker and the path text. -/
structure Link where
  pfx : Option Str
  path : Str
deriving DecidableEq, Repr

/-- Constructor `Link::new` trims the captured path text. -/
def Link.new (p? : Option Str) (path : Str) : Link := ⟨p?, trimStr path⟩

/-- Method `Link::display`: the namespace marker with `:` (when present) followed by the trimmed path. -/
def Link.display (l : Link) : Str :=
  (match l.pfx with
   | some p => p ++ [ ':' ]
   | none => []) ++ l.path

/-- One regex match record: the four named capture groups.  The groups tile
the whole match, so the matched text `caps[0]` is their concatenation. -/
structure Caps where
  left : Str
  pfx : Option Str
  path : Str
  right : Str
deriving DecidableEq, Repr

/-- The optional `prefix:` part of the matched text. -/
def pfxPart : Option Str → Str
  | some p => p ++ [ ':' ]
  | none => []

/-- The whole matched text `caps[0]`. -/
def capsOrigin (c : Caps) : Str := c.left ++ pfxPart c.pfx ++ c.path ++ c.right

/-! ### The scanners

Deterministic implementations of the leftmost-first match semantics of the
three patterns

  `DEFAULT_LINK_RE  = (?P<left>\[\[\s*)((?P<prefix>diary|file|local):)?(?P<path>[^#|]+?)(?P<right>(#.*)?(\|.*)*\]\])`
  `WIKI_INCLUDE_RE  = (?P<left>\{\{\s*)((?P<prefix>diary|file|local):)?(?P<path>[^#|]+?)(?P<right>(#.*)?(\|.*)*\}\})`
  `MD_LINK_RE       = (?P<left>\[.*\]\()((?P<prefix>diary|file|local):)?(?P<path>[^#|]+?)(?P<right>(#.*)?\))`

over `Str`.  Backtracking priorities are resolved statically: `.` never
matches a newline, `[^#|]` matches anything but `#` and `|` (newlines
included), `\s*` is greedy, the optional prefix group prefers to be present,
the path is lazy, and the right-delimiter group `(#.*)?(\|.*)*cc` resolves to
the LAST `cc` on the current line when it starts with `#` or `|`, and to an
immediate `cc` otherwise. -/

/-- Index of the last occurrence of the digram `cc` in `line`. -/
def lastCCIdx (c : Char) : Str → Option Nat
  | [] => none
  | h :: t =>
    match lastCCIdx c t with
    | some i => some (i + 1)
    | none => if h = c ∧ t.take 1 = [c] then some 0 else none

/-- Length consumed by `(#.*)?(\|.*)*cc` (with `cc` the doubled close
delimiter) at the given suffix, under greedy backtracking: an immediate `cc`
matches at once; a leading `#` or `|` commits to the last `cc` on the current
line; anything else fails. -/
def wikiRight (c : Char) (u : Str) : Option Nat :=
  if u.take 2 = [c, c] then some 2
  else
    match u with
    | h :: t =>
      if h = '#' ∨ h = '|' then (lastCCIdx c (t.takeWhile (fun x => x ≠ '\n'))).map (· + 3)
      else none
    | [] => none

/-- Length consumed by `(#.*)?\)` at the given suffix: an immediate `)`
matches at once; a leading `#` commits to the last `)` on the current line. -/
def mdRight (u : Str) : Option Nat :=
  match u with
  | ')' :: _ => some 1
  | '#' :: t => (lastIdxOf ')' (t.takeWhile (fun x => x ≠ '\n'))).map (· + 2)
  | _ => none

/-- Lazy `[^#|]+?` followed by the right-delimiter matcher `rf`: the shortest
non-empty run of non-`#`, non-`|` characters after which `rf` succeeds.
Returns (path capture, right capture, rest). -/
def pathRight (rf : Str → Option Nat) : Str → Option (Str × Str × Str)
  | [] => none
  | ch :: t =>
    if ch = '#' ∨ ch = '|' then none
    else
      match rf t with
      | some r => some ([ch], t.take r, t.drop r)
      | none =>
        match pathRight rf t with
        | some pr => some (ch :: pr.1, pr.2.1, pr.2.2)
        | none => none

/-- The optional group `((diary|file|local):)`: try each literal in the
pattern's order. -/
def pfxAttempt (v : Str) : Option (Str × Str) :=
  if startsWith ("diary:".data) v then some ("diary".data, v.drop 6)
  else if startsWith ("file:".data) v then some ("file".data, v.drop 5)
  else if startsWith ("local:".data) v then some ("local".data, v.drop 6)
  else none

/-- Try prefix-then-path-then-right at `v`, given the left capture `lf`:
the optional prefix group prefers to match; if the rest fails with the prefix
consumed, it retries without it (the regex `?` backtracking). -/
def tryAt (rf : Str → Option Nat) (lf : Str) (v : Str) : Option (Caps × Str) :=
  match pfxAttempt v with
  | some pv =>
    (match pathRight rf pv.2 with
     | some pr => some (⟨lf, some pv.1, pr.1, pr.2.1⟩, pr.2.2)
     | none =>
       match pathRight rf v with
       | some pr => some (⟨lf, none, pr.1, pr.2.1⟩, pr.2.2)
       | none => none)
  | none =>
    match pathRight rf v with
    | some pr => some (⟨lf, none, pr.1, pr.2.1⟩, pr.2.2)
    | none => none

/-- Greedy `\s*` after a doubled open delimiter `oo`: try the largest
whitespace run first and back off one character at a time. -/
def wikiTryW (rf : Str → Option Nat) (oo t : Str) : Nat → Option (Caps × Str)
  | 0 => tryAt rf oo t
  | w + 1 =>
    match tryAt rf (oo ++ t.take (w + 1)) (t.drop (w + 1)) with
    | some r => some r
    | none => wikiTryW rf oo t w

/-- Match attempt for the two wiki-shaped patterns at the current position:
the position must start with the doubled open delimiter. -/
def tryHereWiki (o c : Char) (s : Str) : Option (Caps × Str) :=
  match s with
  | a :: b :: t =>
    if a = o ∧ b = o then wikiTryW (wikiRight c) [o, o] t ((t.takeWhile isWS).length)
    else none
  | _ => none

/-- The `DEFAULT_LINK_RE` match attempt at the current position. -/
def tryHereDefault (s : Str) : Option (Caps × Str) := tryHereWiki '[' ']' s

/-- The `WIKI_INCLUDE_RE` match attempt at the current position. -/
def tryHereInclude (s : Str) : Option (Caps × Str) := tryHereWiki '{' '}' s

/-- Candidate end positions for the greedy `\[.*\](`: indices of `](` on the
current line after the opening `[`, in decreasing order (longest `.*`
first). -/
def mdCands (t : Str) : List Nat :=
  let line := t.takeWhile (fun x => x ≠ '\n')
  ((List.range line.length).filter
    (fun q => decide ((line.drop q).take 2 = [ ']' , '(' ]))).reverse

/-- Try the `MD_LINK_RE` continuation for each left-delimiter candidate. -/
def mdTry (t : Str) : List Nat → Option (Caps × Str)
  | [] => none
  | q :: qs =>
    match tryAt mdRight ( '[' :: t.take (q + 2)) (t.drop (q + 2)) with
    | some r => some r
    | none => mdTry t qs

/-- The `MD_LINK_RE` match attempt at the current position. -/
def tryHereMD (s : Str) : Option (Caps × Str) :=
  match s with
  | '[' :: t => mdTry t (mdCands t)
  | _ => none

/-- Leftmost match: try every start position from the left. -/
def findFrom (th : Str → Option (Caps × Str)) : Str → Option (Str × Caps × Str)
  | [] => (th []).map (fun cr => ([], cr.1, cr.2))
  | x :: xs =>
    match th (x :: xs) with
    | some cr => some ([], cr.1, cr.2)
    | none => (findFrom th xs).map (fun pcr => (x :: pcr.1, pcr.2.1, pcr.2.2))

/-- All successive non-overlapping leftmost matches, with the unmatched gap
before each and the trailing gap (`Regex::replace_all`'s traversal).  Every
real match consumes at least one character, so `fuel = length + 1` makes the
fuel immaterial. -/
def scanAux (th : Str → Option (Caps × Str)) : Nat → Str → List (Str × Caps) × Str
  | 0, s => ([], s)
  | Nat.succ fuel, s =>
    match findFrom th s with
    | none => ([], s)
    | some pcr =>
      ((pcr.1, pcr.2.1) :: (scanAux th fuel pcr.2.2).1, (scanAux th fuel pcr.2.2).2)

/-- The match/gap decomposition of a text under one pattern. -/
def scanPieces (th : Str → Option (Caps × Str)) (s : Str) : List (Str × Caps) × Str :=
  scanAux th (s.length + 1) s

/-- The list of match records of one pattern on a text. -/
def linkMatches (th : Str → Option (Caps × Str)) (s : Str) : List Caps :=
  ((scanPieces th s).1).map (fun pc => pc.2)

/-- Rebuild a text from gap/match pieces, rendering each match with `g`. -/
def joinWith (g : Caps → Str) : List (Str × Caps) → Str → Str
  | [], tl => tl
  | pc :: ps, tl => pc.1 ++ g pc.2 ++ joinWith g ps tl

/-- Replace every match using `f`, keeping the gaps; `none` (a panic in the
replacement closure) aborts the whole traversal. -/
def renderRepl (f : Caps → Option Str) : List (Str × Caps) → Str → Option Str
  | [], tl => some tl
  | pc :: ps, tl =>
    match f pc.2 with
    | none => none
    | some r => (renderRepl f ps tl).map (fun rest => pc.1 ++ r ++ rest)

/-- Model of `Regex::replace_all` with a fallible replacement closure. -/
def replaceAllOpt (th : Str → Option (Caps × Str)) (f : Caps → Option Str) (s : Str) :
    Option Str :=
  renderRepl f (scanPieces th s).1 (scanPieces th s).2

/-! ### The Wiki engine -/

/-- The `Wiki` struct: wiki root and the current document's path. -/
structure Wiki where
  wikiRoot : List Comp
  contentPath : List Comp
deriving DecidableEq, Repr

/-- Method `Wiki::get_absolute_path`.  The `expect` on a missing parent (a panic in
the source) is modelled as `none`. -/
def getAbsolutePath (w : Wiki) (l : Link) : Option AbsolutePath :=
  let lp := l.path.dropWhile (fun ch => ch = '/')
  if l.pfx = some ("diary".data) then
    some ⟨clean (joinS (joinS w.wikiRoot ("diary".data)) lp)⟩
  else if l.path.take 1 = [ '/' ] then
    some ⟨clean (joinS w.wikiRoot lp)⟩
  else
    match parentC w.contentPath with
    | none => none
    | some d => some ⟨clean (joinS d lp)⟩

/-- Method `Wiki::get_relative_path`: `diff_paths` of the extension-stripped target
against the current document's directory.  The outer `none` is the panic on a
missing parent; the inner `none` is `diff_paths` returning `None`. -/
def getRelativePath (w : Wiki) (t : AbsolutePath) : Option (Option Str) :=
  match parentC w.contentPath with
  | none => none
  | some d => some ((diffPaths (withExtEmpty t.comps) d).map renderComps)

/-- The space-insertion rule applied to the right capture on rewrite: a
right-delimiter capture beginning with `|` gets one space before it. -/
def adjustRight (r : Str) : Str := if r.take 1 = [ '|' ] then ' ' :: r else r

/-- The replacement text (the `replaced` binding of the closure): the
`diary:basename` form for a diary target, otherwise the relative path with
the original non-`diary` prefix re-emitted; `Link::display` on failure of
either computation. -/
def replacedOf (w : Wiki) (t : AbsolutePath) (l : Link) (p? : Option Str) : Option Str :=
  if isInDiary t then
    some (match getFileName t with
          | some name => ("diary:".data) ++ name
          | none => l.display)
  else
    match getRelativePath w t with
    | none => none
    | some d =>
      some (match d with
            | some rel =>
              (match p? with
               | some p => if p ≠ ("diary".data) then p ++ [ ':' ] ++ rel else rel
               | none => rel)
            | none => l.display)

/-- The `replace` closure of `Wiki::replace_links`: a match that does not
resolve equal to `from` is reproduced verbatim; otherwise the link is rebuilt
as left ++ replaced ++ adjusted right. -/
def replaceCaps (w : Wiki) (f t : AbsolutePath) (c : Caps) : Option Str :=
  match getAbsolutePath w (Link.new c.pfx c.path) with
  | none => none
  | some r =>
    if absEq r f = false then some (capsOrigin c)
    else
      match replacedOf w t (Link.new c.pfx c.path) c.pfx with
      | none => none
      | some rep => some (c.left ++ rep ++ adjustRight c.right)

/-- Method `Wiki::replace_links`: the three passes, Markdown first, then bracket
wiki links, then brace transclusions, each scanning the previous result. -/
def replaceLinks (w : Wiki) (content : Str) (f t : AbsolutePath) : Option Str :=
  match replaceAllOpt tryHereMD (replaceCaps w f t) content with
  | none => none
  | some c1 =>
    match replaceAllOpt tryHereDefault (replaceCaps w f t) c1 with
    | none => none
    | some c2 => replaceAllOpt tryHereInclude (replaceCaps w f t) c2

/-- The specification's reading of a link path: a plain sequence of `/`
separated segments, `.` and empty segments ignored. -/
def relSegs (s : Str) : List Comp := parseSegs (splitSlash s)

/-- The specification strips one leading `/` when present. -/
def stripOneSlash (s : Str) : Str := if s.take 1 = [ '/' ] then s.drop 1 else s

/-- Gap/replacement pairs joined with the trailing gap. -/
def joinPairs : List ((Str × Caps) × Str) → Str → Str
  | [], tl => tl
  | pr :: ps, tl => pr.1.1 ++ pr.2 ++ joinPairs ps tl

/-! ### Specification-side definitions (refinement targets) -/

/-- The Location equality rule as §3 of the specification words it: equal when
both carry an extension and the paths match exactly, or when at least one
lacks an extension and the extension-stripped paths match. -/
def specLocEq (a b : AbsolutePath) : Prop :=
  ((extensionC a.comps).isSome = true ∧ (extensionC b.comps).isSome = true ∧
    a.comps = b.comps) ∨
  (((extensionC a.comps).isSome = false ∨ (extensionC b.comps).isSome = false) ∧
    withExtEmpty a.comps = withExtEmpty b.comps)

/-- The resolver as §4.2 of the specification words it: strip one leading `/`;
`diary` always resolves against root/diary, a leading `/` against the root,
anything else against the current document's directory; join and normalise. -/
def specResolve (w : Wiki) (l : Link) : Option AbsolutePath :=
  if l.pfx = some ("diary".data) then
    some ⟨clean (w.wikiRoot ++ [Comp.normal ("diary".data)] ++ relSegs (stripOneSlash l.path))⟩
  else if l.path.take 1 = [ '/' ] then
    some ⟨clean (w.wikiRoot ++ relSegs (stripOneSlash l.path))⟩
  else
    match parentC w.contentPath with
    | none => none
    | some d => some ⟨clean (d ++ relSegs l.path)⟩

/-- The prefix re-emission rule of §4.4: a non-`diary` prefix is re-emitted
with `:` before the relative path, otherwise the bare relative path. -/
def pfxEmit (p? : Option Str) (rel : Str) : Str :=
  match p? with
  | some p => if p ≠ ("diary".data) then p ++ [ ':' ] ++ rel else rel
  | none => rel

/-- All match records of the three passes on a text. -/
def allMatches (s : Str) : List Caps :=
  linkMatches tryHereMD s ++ linkMatches tryHereDefault s ++ linkMatches tryHereInclude s

/-- Frame property of one pass: a successful traversal decomposes the input
into gaps and matches and the output into the same gaps with each match
replaced by its closure result. -/
def frameOK (th : Str → Option (Caps × Str)) : Prop :=
  ∀ (g : Caps → Option Str) (s out : Str), replaceAllOpt th g s = some out →
    ∃ reps, List.Forall₂ (fun (pc : Str × Caps) rep => g pc.2 = some rep)
        (scanPieces th s).1 reps ∧
      out = joinPairs ((scanPieces th s).1.zip reps) (scanPieces th s).2 ∧
      s = joinWith capsOrigin (scanPieces th s).1 (scanPieces th s).2

/-! ### Fixtures for the concrete examples -/

/-- Wiki root `/root`, current document `/root/books/note.md`. -/
def exWiki : Wiki := ⟨parsePath ("/root".data), parsePath ("/root/books/note.md".data)⟩

/-- Wiki root `/root`, current document `/root/note.md`. -/
def cexWiki : Wiki := ⟨parsePath ("/root".data), parsePath ("/root/note.md".data)⟩

/-- Wiki root `/root`, current document `/root/note/sub.md`. -/
def cexWiki9 : Wiki := ⟨parsePath ("/root".data), parsePath ("/root/note/sub.md".data)⟩

/-! ### Structural lemmas about the scanners -/

/-- A match attempt decomposes its input: the matched text followed by the
returned rest is the input, and the left capture is never empty. -/
def thSpec (th : Str → Option (Caps × Str)) : Prop :=
  ∀ s cr, th s = some cr → capsOrigin cr.1 ++ cr.2 = s ∧ cr.1.left ≠ []

theorem startsWith_eq (pat s : Str) (h : startsWith pat s = true) :
    s.take pat.length = pat := by
  simpa [startsWith] using h

theorem pfxAttempt_spec (v : Str) (pv : Str × Str) (h : pfxAttempt v = some pv) :
    pv.1 ++ [ ':' ] ++ pv.2 = v := by
  unfold pfxAttempt at h
  split at h
  · rename_i hd
    cases h
    have h6 := startsWith_eq _ _ hd
    rw [show (("diary:".data).length = 6) from rfl] at h6
    conv_rhs => rw [← List.take_append_drop 6 v]
    rw [h6]; rfl
  · split at h
    · rename_i hd
      cases h
      have h5 := startsWith_eq _ _ hd
      rw [show (("file:".data).length = 5) from rfl] at h5
      conv_rhs => rw [← List.take_append_drop 5 v]
      rw [h5]; rfl
    · split at h
      · rename_i hd
        cases h
        have h6 := startsWith_eq _ _ hd
        rw [show (("local:".data).length = 6) from rfl] at h6
        conv_rhs => rw [← List.take_append_drop 6 v]
        rw [h6]; rfl
      · cases h

theorem pathRight_spec (rf : Str → Option Nat) :
    ∀ v pr, pathRight rf v = some pr → pr.1 ++ pr.2.1 ++ pr.2.2 = v ∧ pr.1 ≠ [] := by
  intro v
  induction v with
  | nil => intro pr h; cases h
  | cons ch t ih =>
    intro pr h
    unfold pathRight at h
    split at h
    · cases h
    · split at h
      · cases h
        refine ⟨?_, by simp⟩
        simp [List.take_append_drop]
      · split at h
        · rename_i pr' hpr'
          cases h
          have := ih pr' hpr'
          refine ⟨?_, by simp⟩
          simpa [List.append_assoc] using congrArg (fun l => ch :: l) this.1
        · cases h

theorem tryAt_spec (rf : Str → Option Nat) (lf v : Str) (cr : Caps × Str)
    (h : tryAt rf lf v = some cr) :
    cr.1.left = lf ∧ pfxPart cr.1.pfx ++ cr.1.path ++ cr.1.right ++ cr.2 = v := by
  unfold tryAt at h
  split at h
  · rename_i pv hpv
    have hv := pfxAttempt_spec v pv hpv
    split at h
    · rename_i pr hpr
      cases h
      have hp := (pathRight_spec rf pv.2 pr hpr).1
      refine ⟨rfl, ?_⟩
      simp only [pfxPart]
      rw [← hv, ← hp]
      simp [List.append_assoc]
    · split at h
      · rename_i pr hpr
        cases h
        have hp := (pathRight_spec rf v pr hpr).1
        refine ⟨rfl, ?_⟩
        simpa [pfxPart, List.append_assoc] using hp
      · cases h
  · split at h
    · rename_i pr hpr
      cases h
      have hp := (pathRight_spec rf v pr hpr).1
      refine ⟨rfl, ?_⟩
      simpa [pfxPart, List.append_assoc] using hp
    · cases h

theorem wikiTryW_spec (rf : Str → Option Nat) (oo t : Str) :
    ∀ w cr, wikiTryW rf oo t w = some cr →
      capsOrigin cr.1 ++ cr.2 = oo ++ t ∧ (oo ≠ [] → cr.1.left ≠ []) := by
  intro w
  induction w with
  | zero =>
    intro cr h
    unfold wikiTryW at h
    have ht := tryAt_spec rf oo t cr h
    have h2 := ht.2
    constructor
    · simp only [capsOrigin]
      simp only [List.append_assoc] at h2 ⊢
      rw [ht.1, h2]
    · intro hoo
      rw [ht.1]; exact hoo
  | succ w ih =>
    intro cr h
    unfold wikiTryW at h
    split at h
    · rename_i cr0 hcr0
      cases h
      have ht := tryAt_spec rf (oo ++ t.take (w + 1)) (t.drop (w + 1)) _ hcr0
      have h2 := ht.2
      constructor
      · simp only [capsOrigin]
        simp only [List.append_assoc] at h2 ⊢
        rw [ht.1, h2]
        simp [List.append_assoc, List.take_append_drop]
      · intro hoo
        rw [ht.1]
        simp [hoo]
    · exact ih cr h

theorem thSpec_wiki (o c : Char) : thSpec (tryHereWiki o c) := by
  intro s cr h
  unfold tryHereWiki at h
  split at h
  · rename_i a b t
    split at h
    · rename_i hab
      have := wikiTryW_spec (wikiRight c) [o, o] t ((t.takeWhile isWS).length) cr h
      refine ⟨?_, this.2 (by simp)⟩
      rw [this.1, hab.1, hab.2]
      rfl
    · cases h
  · cases h

theorem mdTry_spec (t : Str) :
    ∀ qs cr, mdTry t qs = some cr →
      capsOrigin cr.1 ++ cr.2 = '[' :: t ∧ cr.1.left ≠ [] := by
  intro qs
  induction qs with
  | nil => intro cr h; cases h
  | cons q qs ih =>
    intro cr h
    unfold mdTry at h
    split at h
    · rename_i hcr0
      cases h
      have ht := tryAt_spec mdRight ( '[' :: t.take (q + 2)) (t.drop (q + 2)) _ hcr0
      have h2 := ht.2
      constructor
      · simp only [capsOrigin]
        simp only [List.append_assoc] at h2 ⊢
        rw [ht.1, h2]
        simp [List.take_append_drop]
      · rw [ht.1]; simp
    · exact ih cr h

theorem thSpec_md : thSpec tryHereMD := by
  intro s cr h
  unfold tryHereMD at h
  split at h
  · rename_i t
    exact mdTry_spec t (mdCands t) cr h
  · cases h

theorem thSpec_default : thSpec tryHereDefault := thSpec_wiki '[' ']'

theorem thSpec_include : thSpec tryHereInclude := thSpec_wiki '{' '}'

theorem findFrom_spec (th : Str → Option (Caps × Str)) (hth : thSpec th) :
    ∀ s pcr, findFrom th s = some pcr →
      pcr.1 ++ capsOrigin pcr.2.1 ++ pcr.2.2 = s ∧ pcr.2.1.left ≠ [] := by
  intro s
  induction s with
  | nil =>
    intro pcr h
    unfold findFrom at h
    rw [Option.map_eq_some'] at h
    obtain ⟨cr, hcr, hpcr⟩ := h
    have := hth [] cr hcr
    subst hpcr
    exact ⟨by simpa using this.1, this.2⟩
  | cons x xs ih =>
    intro pcr h
    unfold findFrom at h
    split at h
    · rename_i cr hcr
      cases h
      have := hth (x :: xs) _ hcr
      exact ⟨by simpa using this.1, this.2⟩
    · rw [Option.map_eq_some'] at h
      obtain ⟨pcr0, hpcr0, hpcr⟩ := h
      have := ih pcr0 hpcr0
      subst hpcr
      refine ⟨?_, this.2⟩
      simpa [List.append_assoc] using congrArg (fun l => x :: l) this.1

theorem capsOrigin_ne_nil (c : Caps) (h : c.left ≠ []) : capsOrigin c ≠ [] := by
  unfold capsOrigin
  intro hc
  exact h (by simpa using (List.append_eq_nil.mp
    (List.append_eq_nil.mp (List.append_eq_nil.mp hc).1).1).1)

theorem findFrom_rest_lt (th : Str → Option (Caps × Str)) (hth : thSpec th)
    (s : Str) (pcr : Str × Caps × Str) (h : findFrom th s = some pcr) :
    pcr.2.2.length < s.length := by
  have hs := findFrom_spec th hth s pcr h
  have hlen := congrArg List.length hs.1
  simp only [List.length_append] at hlen
  have hne := capsOrigin_ne_nil _ hs.2
  have : 0 < (capsOrigin pcr.2.1).length := List.length_pos.mpr hne
  omega

theorem scan_reconstruct (th : Str → Option (Caps × Str)) (hth : thSpec th) :
    ∀ fuel s, joinWith capsOrigin (scanAux th fuel s).1 (scanAux th fuel s).2 = s := by
  intro fuel
  induction fuel with
  | zero => intro s; simp [scanAux, joinWith]
  | succ fuel ih =>
    intro s
    unfold scanAux
    split
    · simp [joinWith]
    · rename_i pcr hpcr
      have hs := findFrom_spec th hth s pcr hpcr
      have hs1 := hs.1
      simp only [joinWith]
      rw [List.append_assoc] at hs1
      rw [List.append_assoc, ih pcr.2.2]
      exact hs1

theorem scanAux_stable (th : Str → Option (Caps × Str)) (hth : thSpec th) :
    ∀ fuel1 fuel2 s, s.length < fuel1 → s.length < fuel2 →
      scanAux th fuel1 s = scanAux th fuel2 s := by
  intro fuel1
  induction fuel1 with
  | zero => intro fuel2 s h1; omega
  | succ fuel1 ih =>
    intro fuel2 s h1 h2
    cases fuel2 with
    | zero => omega
    | succ fuel2 =>
      cases hpcr : findFrom th s with
      | none => unfold scanAux; rw [hpcr]
      | some pcr =>
        have hlt := findFrom_rest_lt th hth s pcr hpcr
        unfold scanAux
        rw [hpcr]
        dsimp only
        rw [ih fuel2 pcr.2.2 (by omega) (by omega)]

theorem renderRepl_id (f : Caps → Option Str) :
    ∀ ps tl, (∀ pc ∈ ps, f pc.2 = some (capsOrigin pc.2)) →
      renderRepl f ps tl = some (joinWith capsOrigin ps tl) := by
  intro ps
  induction ps with
  | nil => intro tl _; rfl
  | cons pc ps ih =>
    intro tl h
    unfold renderRepl
    rw [h pc (by simp), ih tl (fun x hx => h x (by simp [hx]))]
    simp [joinWith]

theorem renderRepl_shape (f : Caps → Option Str) :
    ∀ ps tl out, renderRepl f ps tl = some out →
      ∃ reps, List.Forall₂ (fun (pc : Str × Caps) rep => f pc.2 = some rep) ps reps ∧
        out = joinPairs (ps.zip reps) tl := by
  intro ps
  induction ps with
  | nil =>
    intro tl out h
    refine ⟨[], List.Forall₂.nil, ?_⟩
    simpa [renderRepl, joinPairs] using h.symm
  | cons pc ps ih =>
    intro tl out h
    unfold renderRepl at h
    split at h
    · cases h
    · rename_i r hr
      rw [Option.map_eq_some'] at h
      obtain ⟨rest, hrest, hout⟩ := h
      obtain ⟨reps, hall, hjoin⟩ := ih tl rest hrest
      refine ⟨r :: reps, List.Forall₂.cons hr hall, ?_⟩
      subst hout
      simp [joinPairs, hjoin, List.zip]

theorem pass_id (th : Str → Option (Caps × Str)) (hth : thSpec th)
    (g : Caps → Option Str) (s : Str)
    (h : ∀ c ∈ linkMatches th s, g c = some (capsOrigin c)) :
    replaceAllOpt th g s = some s := by
  unfold replaceAllOpt
  have hmem : ∀ pc ∈ (scanPieces th s).1, g pc.2 = some (capsOrigin pc.2) := by
    intro pc hpc
    apply h
    unfold linkMatches
    exact List.mem_map_of_mem _ hpc
  rw [renderRepl_id g _ _ hmem]
  simp only [scanPieces]
  rw [scan_reconstruct th hth]

theorem getAbs_isSome (w : Wiki) (l : Link) (d : List Comp)
    (hd : parentC w.contentPath = some d) :
    ∃ r, getAbsolutePath w l = some r := by
  unfold getAbsolutePath
  split
  · exact ⟨_, rfl⟩
  · split
    · exact ⟨_, rfl⟩
    · rw [hd]
      exact ⟨_, rfl⟩

/-! ### Path-parsing lemmas used to compare the resolver with its
specification -/

theorem relSegs_slash (t : Str) : relSegs ('/' :: t) = relSegs t := by
  simp [relSegs, splitSlash, parseSegs]

theorem relSegs_dropSlashes (s : Str) :
    relSegs (s.dropWhile (fun ch => ch = '/')) = relSegs s := by
  induction s with
  | nil => rfl
  | cons h t ih =>
    by_cases hh : h = '/'
    · subst hh
      rw [List.dropWhile_cons_of_pos (by simp), ih, relSegs_slash]
    · rw [List.dropWhile_cons_of_neg (by simp [hh])]

theorem relSegs_stripOne (s : Str) : relSegs (stripOneSlash s) = relSegs s := by
  unfold stripOneSlash
  split
  · rename_i hs
    cases s with
    | nil => simp at hs
    | cons h t =>
      simp at hs
      subst hs
      simpa using (relSegs_slash t).symm
  · rfl

theorem dropWhile_no_slash (s : Str) (h : s.take 1 ≠ [ '/' ]) :
    s.dropWhile (fun ch => ch = '/') = s := by
  cases s with
  | nil => rfl
  | cons x t =>
    have hx : x ≠ '/' := fun hc => h (by simp [hc])
    rw [List.dropWhile_cons_of_neg (by simp [hx])]

theorem dropSlash_take_ne (s : Str) :
    (s.dropWhile (fun ch => ch = '/')).take 1 ≠ [ '/' ] := by
  induction s with
  | nil => simp
  | cons x t ih =>
    by_cases hx : x = '/'
    · subst hx
      rw [List.dropWhile_cons_of_pos (by simp)]
      exact ih
    · rw [List.dropWhile_cons_of_neg (by simp [hx])]
      simp [hx]

theorem rootDir_not_mem_parseSegs (segs : List Str) :
    Comp.rootDir ∉ parseSegs segs := by
  intro hmem
  rw [parseSegs, List.mem_filterMap] at hmem
  obtain ⟨a, _, ha⟩ := hmem
  split at ha
  · cases ha
  · split at ha
    · cases ha
    · split at ha
      · cases ha
      · cases ha

theorem take_one_mem {α : Type} (l : List α) (a : α) (h : l.take 1 = [a]) :
    a ∈ l := by
  cases l with
  | nil => cases h
  | cons x t =>
    simp at h
    simp [h]

theorem parsePath_take_root (s : Str) (h : s.take 1 ≠ [ '/' ]) :
    (parsePath s).take 1 ≠ [Comp.rootDir] := by
  unfold parsePath
  rw [if_neg h]
  split
  · simp
  · rename_i first rest _
    split
    · simp
    · intro hc
      exact rootDir_not_mem_parseSegs (first :: rest) (take_one_mem _ _ hc)

theorem joinS_rel (b : List Comp) (s : Str) (h : s.take 1 ≠ [ '/' ]) :
    joinS b s = b ++ parsePath s := by
  unfold joinS
  rw [if_neg (parsePath_take_root s h)]

theorem parsePath_nonabs (s : Str) (h : s.take 1 ≠ [ '/' ]) :
    parsePath s = relSegs s ∨ parsePath s = Comp.curDir :: relSegs s := by
  unfold parsePath
  rw [if_neg h]
  cases hs : splitSlash s with
  | nil => left; simp [relSegs, hs, parseSegs]
  | cons first rest =>
    dsimp only
    by_cases hdot : first = [ '.' ]
    · right
      rw [if_pos hdot]
      have : relSegs s = parseSegs rest := by
        rw [relSegs, hs, hdot]
        simp [parseSegs]
      rw [this]
    · left
      rw [if_neg hdot, relSegs, hs]

theorem clean_mid_curDir (b x : List Comp) :
    clean (b ++ Comp.curDir :: x) = clean (b ++ x) := by
  unfold clean
  have : (b ++ Comp.curDir :: x).foldl cleanStep [] = (b ++ x).foldl cleanStep [] := by
    rw [List.foldl_append, List.foldl_append, List.foldl_cons]
    rfl
  rw [this]

theorem clean_join_relSegs (b : List Comp) (s : Str) (h : s.take 1 ≠ [ '/' ]) :
    clean (b ++ parsePath s) = clean (b ++ relSegs s) := by
  cases parsePath_nonabs s h with
  | inl heq => rw [heq]
  | inr heq => rw [heq, clean_mid_curDir]

theorem frameOK_of_thSpec (th : Str → Option (Caps × Str)) (hth : thSpec th) :
    frameOK th := by
  intro g s out hout
  unfold replaceAllOpt at hout
  obtain ⟨reps, hall, hjoin⟩ := renderRepl_shape g _ _ _ hout
  refine ⟨reps, hall, hjoin, ?_⟩
  have hrec := scan_reconstruct th hth (s.length + 1) s
  unfold scanPieces
  exact hrec.symm

/-! ### The claims -/

/-- C1: Location identity comparison is extension-tolerant exactly as
specified: two Locations compare equal precisely when both carry an extension
and the full paths are identical, or at least one lacks an extension and the
extension-stripped paths are identical; `/root/note` and `/root/note.md` both
equal a `from` of `/root/note.md`, and neither equals `/root/notebook.md`. -/
theorem C1_location_eq_spec :
    (∀ a b : AbsolutePath, absEq a b = true ↔ specLocEq a b) ∧
    absEq (AbsolutePath.new ("/root/note".data)) (AbsolutePath.new ("/root/note.md".data)) = true ∧
    absEq (AbsolutePath.new ("/root/note.md".data)) (AbsolutePath.new ("/root/note.md".data)) = true ∧
    absEq (AbsolutePath.new ("/root/note".data)) (AbsolutePath.new ("/root/notebook.md".data)) = false ∧
    absEq (AbsolutePath.new ("/root/note.md".data)) (AbsolutePath.new ("/root/notebook.md".data)) = false := by
  refine ⟨?_, by decide, by decide, by decide, by decide⟩
  intro a b
  unfold absEq specLocEq
  cases h1 : extensionC a.comps <;> cases h2 : extensionC b.comps <;> simp [h1, h2]

/-- C10: the extension-tolerant equality is not transitive: `/root/note.md`
equals `/root/note`, `/root/note` equals `/root/note.txt`, but `/root/note.md`
does not equal `/root/note.txt`. -/
theorem C10_eq_not_transitive :
    absEq (AbsolutePath.new ("/root/note.md".data)) (AbsolutePath.new ("/root/note".data)) = true ∧
    absEq (AbsolutePath.new ("/root/note".data)) (AbsolutePath.new ("/root/note.txt".data)) = true ∧
    absEq (AbsolutePath.new ("/root/note.md".data)) (AbsolutePath.new ("/root/note.txt".data)) = false :=
  ⟨by decide, by decide, by decide⟩

theorem resolver_eq_spec (w : Wiki) (l : Link) :
    getAbsolutePath w l = specResolve w l := by
  have hjd : joinS w.wikiRoot ("diary".data) = w.wikiRoot ++ [Comp.normal ("diary".data)] := by
    unfold joinS
    rw [if_neg (by decide)]
    rfl
  simp only [getAbsolutePath, specResolve]
  by_cases hd : l.pfx = some ("diary".data)
  · rw [if_pos hd, if_pos hd, hjd]
    have h1 : (l.path.dropWhile (fun ch => ch = '/')).take 1 ≠ [ '/' ] :=
      dropSlash_take_ne l.path
    rw [joinS_rel _ _ h1, clean_join_relSegs _ _ h1, relSegs_dropSlashes, ← relSegs_stripOne]
  · rw [if_neg hd, if_neg hd]
    by_cases hs : l.path.take 1 = [ '/' ]
    · rw [if_pos hs, if_pos hs]
      have h1 := dropSlash_take_ne l.path
      rw [joinS_rel _ _ h1, clean_join_relSegs _ _ h1, relSegs_dropSlashes, ← relSegs_stripOne]
    · rw [if_neg hs, if_neg hs]
      cases hp : parentC w.contentPath with
      | none => rfl
      | some d =>
        dsimp only
        rw [dropWhile_no_slash _ hs, joinS_rel _ _ hs, clean_join_relSegs d l.path hs]

/-- C2: for every parsed link (prefix `diary`, `file`, `local` or absent),
the resolver chooses the base directory as specified — `diary` resolves
against root/diary regardless of a leading `/`; otherwise a leading `/`
resolves against the wiki root and its absence against the directory of the
current document — and the joined result is normalised. -/
theorem C2_resolver_matches_spec (w : Wiki) (p? : Option Str) (p : Str)
    (_hp : p? = none ∨ p? = some ("diary".data) ∨ p? = some ("file".data) ∨
      p? = some ("local".data)) :
    getAbsolutePath w (Link.new p? p) = specResolve w (Link.new p? p) :=
  resolver_eq_spec w (Link.new p? p)

theorem C2_resolver_matches_spec_w :
    getAbsolutePath exWiki (Link.new (some ("diary".data)) ("/x".data)) =
      specResolve exWiki (Link.new (some ("diary".data)) ("/x".data)) ∧
    getAbsolutePath exWiki (Link.new (some ("diary".data)) ("/x".data)) =
      some (AbsolutePath.new ("/root/diary/x".data)) :=
  ⟨C2_resolver_matches_spec exWiki _ _ (Or.inr (Or.inl rfl)), by decide⟩

/-- C3: a matched link resolving equal to `from`, with `to` inside the diary
area, is rewritten with path text exactly `diary:` followed by the
extension-stripped base name of `to`, replacing whatever prefix the original
link had, for every wiki context and capture; in particular the
`diary:2010-01-01` example rewrites to `diary:2020-02-02`. -/
theorem C3_diary_retarget :
    (∀ (w : Wiki) (f t : AbsolutePath) (c : Caps) (r : AbsolutePath) (name : Str),
      getAbsolutePath w (Link.new c.pfx c.path) = some r →
      absEq r f = true →
      isInDiary t = true →
      getFileName t = some name →
      replaceCaps w f t c =
        some (c.left ++ (("diary:".data) ++ name) ++ adjustRight c.right)) ∧
    replaceLinks exWiki ("Here is a [diary](diary:2010-01-01).".data)
      (AbsolutePath.new ("/root/diary/2010-01-01.md".data))
      (AbsolutePath.new ("/root/diary/2020-02-02.md".data)) =
      some ("Here is a [diary](diary:2020-02-02).".data) := by
  constructor
  · intro w f t c r name hr heq hdiary hname
    unfold replaceCaps
    rw [hr]
    dsimp only
    rw [if_neg (by simp [heq])]
    unfold replacedOf
    rw [if_pos hdiary, hname]
  · decide

theorem C3_diary_retarget_w :
    replaceCaps exWiki (AbsolutePath.new ("/root/diary/2010-01-01.md".data))
      (AbsolutePath.new ("/root/diary/2020-02-02.md".data))
      ⟨"[diary](".data, some ("diary".data), "2010-01-01".data, ")".data⟩ =
      some (("[diary](".data) ++ (("diary:".data) ++ ("2020-02-02".data)) ++
        adjustRight (")".data)) :=
  C3_diary_retarget.1 exWiki _ _ _ (AbsolutePath.new ("/root/diary/2010-01-01".data)) _
    (by decide) (by decide) (by decide) (by decide)

/-- C4: a matched link resolving equal to `from`, with `to` outside the diary
area, is rewritten to the extension-stripped path of `to` relative to the
current document's directory, with a `file`/`local` prefix re-emitted before
it and a `diary` prefix or no prefix yielding the bare relative path; the
`diary:2010-01-01` to `/root/non-diary.md` example gives `../non-diary` and
the absolute `/link` example gives `../renamed`. -/
theorem C4_relative_retarget :
    (∀ (w : Wiki) (f t : AbsolutePath) (c : Caps) (r : AbsolutePath) (d rel : List Comp),
      getAbsolutePath w (Link.new c.pfx c.path) = some r →
      absEq r f = true →
      isInDiary t = false →
      parentC w.contentPath = some d →
      diffPaths (withExtEmpty t.comps) d = some rel →
      replaceCaps w f t c =
        some (c.left ++ pfxEmit c.pfx (renderComps rel) ++ adjustRight c.right)) ∧
    replaceLinks exWiki ("Here is a [diary](diary:2010-01-01).".data)
      (AbsolutePath.new ("/root/diary/2010-01-01.md".data))
      (AbsolutePath.new ("/root/non-diary.md".data)) =
      some ("Here is a [diary](../non-diary).".data) ∧
    replaceLinks exWiki ("Here is a [absolute](/link).".data)
      (AbsolutePath.new ("/root/link.md".data))
      (AbsolutePath.new ("/root/renamed.md".data)) =
      some ("Here is a [absolute](../renamed).".data) := by
  refine ⟨?_, by decide, by decide⟩
  intro w f t c r d rel hr heq hdiary hd hdiff
  unfold replaceCaps
  rw [hr]
  dsimp only
  rw [if_neg (by simp [heq])]
  unfold replacedOf
  rw [if_neg (by simp [hdiary])]
  unfold getRelativePath
  rw [hd]
  dsimp only
  rw [hdiff]
  simp only [Option.map_some']
  unfold pfxEmit
  cases c.pfx with
  | none => rfl
  | some p => rfl

theorem C4_relative_retarget_w :
    replaceCaps exWiki (AbsolutePath.new ("/root/link.md".data))
      (AbsolutePath.new ("/root/renamed.md".data))
      ⟨"[absolute](".data, none, "/link".data, ")".data⟩ =
      some (("[absolute](".data) ++
        pfxEmit none (renderComps [Comp.parentDir, Comp.normal ("renamed".data)]) ++
        adjustRight (")".data)) :=
  C4_relative_retarget.1 exWiki _ _ _ (AbsolutePath.new ("/root/link".data))
    (parsePath ("/root/books".data)) [Comp.parentDir, Comp.normal ("renamed".data)]
    (by decide) (by decide) (by decide) (by decide) (by decide)

/-- C7 counterexample: when the relative-path computation fails, the fallback
does not emit the entire original matched text unchanged: the captured path
`x␣␣` (trailing spaces) is trimmed, so `[[x  ]]` becomes `[[x]]`, which
differs from the original matched text. -/
theorem C7_counterexample :
    linkMatches tryHereDefault ("[[x  ]]".data) =
      [⟨"[[".data, none, "x  ".data, "]]".data⟩] ∧
    getRelativePath cexWiki (AbsolutePath.new ("rel".data)) = some none ∧
    replaceLinks cexWiki ("[[x  ]]".data)
      (AbsolutePath.new ("/root/x.md".data)) (AbsolutePath.new ("rel".data)) =
      some ("[[x]]".data) ∧
    ("[[x]]".data : Str) ≠ ("[[x  ]]".data) :=
  ⟨by decide, by decide, by decide, by decide⟩

/-- C7 (amended): when the relative-path computation yields no result for a
matched link resolving equal to `from` (with `to` outside the diary area),
the link is re-emitted between its original delimiters as the original prefix
and the trimmed captured path (with the `|` space rule on the right
delimiter) — equal to the original matched text except that whitespace
around the path capture is dropped — and the rewrite returns a value rather
than panicking. -/
theorem C7_fallback_amended :
    ∀ (w : Wiki) (f t : AbsolutePath) (c : Caps) (r : AbsolutePath),
      getAbsolutePath w (Link.new c.pfx c.path) = some r →
      absEq r f = true →
      isInDiary t = false →
      getRelativePath w t = some none →
      replaceCaps w f t c =
        some (c.left ++ (Link.new c.pfx c.path).display ++ adjustRight c.right) := by
  intro w f t c r hr heq hdiary hrel
  unfold replaceCaps
  rw [hr]
  dsimp only
  rw [if_neg (by simp [heq])]
  unfold replacedOf
  rw [if_neg (by simp [hdiary]), hrel]

theorem C7_fallback_amended_w :
    replaceCaps cexWiki (AbsolutePath.new ("/root/x.md".data))
      (AbsolutePath.new ("rel".data)) ⟨"[[".data, none, "x  ".data, "]]".data⟩ =
      some (("[[".data) ++ (Link.new none ("x  ".data)).display ++
        adjustRight ("]]".data)) :=
  C7_fallback_amended cexWiki _ _ _ (AbsolutePath.new ("/root/x".data))
    (by decide) (by decide) (by decide) (by decide)

/-- C9 counterexample: a match whose path is empty after trimming does
resolve to the directory containing the current document, but that directory
CAN compare equal to a file `from` Location under the extension-tolerant
rule: with document `/root/note/sub.md` and `from = /root/note.md`, the empty
link `[[ ]]` resolves to `/root/note`, compares equal to `from`, and is
rewritten. -/
theorem C9_counterexample :
    trimStr (" ".data) = [] ∧
    getAbsolutePath cexWiki9 (Link.new none (" ".data)) =
      some ⟨parsePath ("/root/note".data)⟩ ∧
    absEq ⟨parsePath ("/root/note".data)⟩ (AbsolutePath.new ("/root/note.md".data)) = true ∧
    replaceLinks cexWiki9 ("[[ ]]".data)
      (AbsolutePath.new ("/root/note.md".data))
      (AbsolutePath.new ("/root/renamed.md".data)) =
      some ("[[../renamed]]".data) :=
  ⟨by decide, by decide, by decide, by decide⟩

/-- C9 (amended): a match whose path is empty after trimming, with a
non-`diary` prefix, resolves to the (cleaned) directory containing the
current document; that Location compares equal to a file `from` exactly when
the extension-tolerant rule relates them, which is possible (`/root/note`
equals `/root/note.md`), so such a match can trigger replacement; it does not
when the names differ. -/
theorem C9_empty_path_amended :
    (∀ (w : Wiki) (p? : Option Str) (p : Str) (d : List Comp),
      parentC w.contentPath = some d →
      trimStr p = [] →
      p? ≠ some ("diary".data) →
      getAbsolutePath w (Link.new p? p) = some ⟨clean d⟩) ∧
    absEq (AbsolutePath.new ("/root/note".data)) (AbsolutePath.new ("/root/note.md".data)) = true ∧
    absEq (AbsolutePath.new ("/root/books".data)) (AbsolutePath.new ("/root/note.md".data)) = false := by
  refine ⟨?_, by decide, by decide⟩
  intro w p? p d hd htrim hp
  have hpath : (Link.new p? p).path = [] := htrim
  unfold getAbsolutePath
  rw [hpath]
  rw [if_neg (by simpa [Link.new] using hp)]
  rw [if_neg (by simp)]
  rw [hd]
  dsimp only
  unfold joinS
  rw [if_neg (by simp [parsePath, splitSlash, parseSegs])]
  simp [parsePath, splitSlash, parseSegs]

theorem C9_empty_path_amended_w :
    getAbsolutePath cexWiki9 (Link.new none (" ".data)) =
      some ⟨clean (parsePath ("/root/note".data))⟩ :=
  C9_empty_path_amended.1 cexWiki9 none (" ".data) (parsePath ("/root/note".data))
    (by decide) (by decide) (by decide)

/-- C5: when every link match of the three passes on the input resolves to a
Location that does not compare equal to `from` (the document having a parent
directory, as the engine's contract requires), the rewrite returns the input
text unchanged, byte for byte. -/
theorem C5_nonmatching_unchanged (w : Wiki) (f t : AbsolutePath) (content : Str)
    (d : List Comp) (hd : parentC w.contentPath = some d)
    (h : ∀ c ∈ allMatches content, ∀ r,
      getAbsolutePath w (Link.new c.pfx c.path) = some r → absEq r f = false) :
    replaceLinks w content f t = some content := by
  have hcaps : ∀ c ∈ allMatches content, replaceCaps w f t c = some (capsOrigin c) := by
    intro c hc
    obtain ⟨r, hr⟩ := getAbs_isSome w (Link.new c.pfx c.path) d hd
    have hne := h c hc r hr
    unfold replaceCaps
    rw [hr]
    dsimp only
    rw [if_pos hne]
  have h1 : replaceAllOpt tryHereMD (replaceCaps w f t) content = some content :=
    pass_id tryHereMD thSpec_md _ content (fun c hc =>
      hcaps c (List.mem_append_left _ (List.mem_append_left _ hc)))
  have h2 : replaceAllOpt tryHereDefault (replaceCaps w f t) content = some content :=
    pass_id tryHereDefault thSpec_default _ content (fun c hc =>
      hcaps c (List.mem_append_left _ (List.mem_append_right _ hc)))
  have h3 : replaceAllOpt tryHereInclude (replaceCaps w f t) content = some content :=
    pass_id tryHereInclude thSpec_include _ content (fun c hc =>
      hcaps c (List.mem_append_right _ hc))
  unfold replaceLinks
  rw [h1]
  dsimp only
  rw [h2]
  dsimp only
  rw [h3]

theorem C5_nonmatching_unchanged_w :
    replaceLinks exWiki ("Here is a [reserve link](other).".data)
      (AbsolutePath.new ("/root/x.md".data)) (AbsolutePath.new ("/root/y.md".data)) =
      some ("Here is a [reserve link](other).".data) :=
  C5_nonmatching_unchanged exWiki _ _ _ (parsePath ("/root/books".data)) (by decide)
    (by
      intro c hc r hr
      rw [show allMatches ("Here is a [reserve link](other).".data) =
        [⟨"[reserve link](".data, none, "other".data, ")".data⟩] from by decide] at hc
      rw [List.mem_singleton] at hc
      subst hc
      rw [show getAbsolutePath exWiki
        (Link.new (none : Option Str) ("other".data)) =
        some ⟨parsePath ("/root/books/other".data)⟩ from by decide] at hr
      cases hr
      decide)

/-- C6 counterexample: two complete links of the same notation on one line do
NOT always form separate matches: two wiki links with `|` descriptions, and
two Markdown links, each merge into a single match. -/
theorem C6_counterexample :
    (linkMatches tryHereDefault ("[[a|d]] [[b|e]]".data)).length = 1 ∧
    (linkMatches tryHereMD ("[a](x) [b](y)".data)).length = 1 :=
  ⟨by decide, by decide⟩

/-- C6 (amended): each pass yields its match records in left-to-right,
non-overlapping order — the gaps and matches reconstruct the text in order —
and two plain wiki links on one line form separate matches; but a match can
span several links of the same notation: two wiki links each carrying a `|`
description merge into one match through the greedy description capture, and
two Markdown links merge through the greedy left-delimiter capture. -/
theorem C6_matches_amended :
    (∀ s, joinWith capsOrigin (scanPieces tryHereMD s).1 (scanPieces tryHereMD s).2 = s) ∧
    (∀ s, joinWith capsOrigin (scanPieces tryHereDefault s).1 (scanPieces tryHereDefault s).2 = s) ∧
    (∀ s, joinWith capsOrigin (scanPieces tryHereInclude s).1 (scanPieces tryHereInclude s).2 = s) ∧
    linkMatches tryHereDefault ("[[a]] [[b]]".data) =
      [⟨"[[".data, none, "a".data, "]]".data⟩, ⟨"[[".data, none, "b".data, "]]".data⟩] ∧
    linkMatches tryHereDefault ("[[a|d]] [[b|e]]".data) =
      [⟨"[[".data, none, "a".data, "|d]] [[b|e]]".data⟩] ∧
    linkMatches tryHereMD ("[a](x) [b](y)".data) =
      [⟨"[a](x) [b](".data, none, "y".data, ")".data⟩] := by
  refine ⟨?_, ?_, ?_, by decide, by decide, by decide⟩
  · intro s
    unfold scanPieces
    exact scan_reconstruct _ thSpec_md _ s
  · intro s
    unfold scanPieces
    exact scan_reconstruct _ thSpec_default _ s
  · intro s
    unfold scanPieces
    exact scan_reconstruct _ thSpec_include _ s

/-- C8: every rewritten link reproduces the captured left delimiter verbatim
and the captured right delimiter verbatim except for the single space
inserted when it begins with `|` (the `adjustRight` rule), and each pass
keeps all text outside matched links unchanged (the output is the input's
gap/match decomposition with only the match segments replaced). -/
theorem C8_delimiters_preserved :
    (∀ (w : Wiki) (f t : AbsolutePath) (c : Caps) (r : AbsolutePath) (res : Str),
      getAbsolutePath w (Link.new c.pfx c.path) = some r →
      absEq r f = true →
      replaceCaps w f t c = some res →
      ∃ mid, res = c.left ++ mid ++ adjustRight c.right) ∧
    frameOK tryHereMD ∧ frameOK tryHereDefault ∧ frameOK tryHereInclude := by
  refine ⟨?_, frameOK_of_thSpec _ thSpec_md, frameOK_of_thSpec _ thSpec_default,
    frameOK_of_thSpec _ thSpec_include⟩
  intro w f t c r res hr heq hres
  unfold replaceCaps at hres
  rw [hr] at hres
  dsimp only at hres
  rw [if_neg (by simp [heq])] at hres
  cases hrep : replacedOf w t (Link.new c.pfx c.path) c.pfx with
  | none => rw [hrep] at hres; cases hres
  | some rep =>
    rw [hrep] at hres
    dsimp only at hres
    refine ⟨rep, ?_⟩
    injection hres with h2
    exact h2.symm

theorem C8_delimiters_preserved_w :
    ∃ mid, ("[[b |d]]".data : Str) =
      ("[[".data) ++ mid ++ adjustRight ("|d]]".data) :=
  C8_delimiters_preserved.1 cexWiki (AbsolutePath.new ("/root/x.md".data))
    (AbsolutePath.new ("/root/b.md".data))
    ⟨"[[".data, none, "x".data, "|d]]".data⟩
    (AbsolutePath.new ("/root/x".data)) ("[[b |d]]".data)
    (by decide) (by decide) (by decide)

end VimwikiRename
